import Mathlib

/-!
Verification of the core of `cugrep` (src/grep.cpp), a minimal line-oriented
substring-search utility.

The embedding models bytes as `Char` (the program only ever compares bytes for
equality, so any type with decidable equality is faithful; all inputs of
interest are ASCII).  The process-wide configuration of the program is passed
explicitly: `pat` is the global `pattern` (its cached length `patternSize` is
`pat.length`), `c` is the global `complement` flag (`-v`), and `recursive` is
the global `recursive` flag (`-r`).

Every loop of the C++ source is translated as a structurally recursive
function on an explicit `fuel : Nat` argument, so that all definitions are
executable by kernel reduction.  Fuel is an artifact of the embedding only:
wrappers pass an amount of fuel that provably suffices (the development proves
the `fuelOut` result unreachable at those amounts wherever a claim needs it).

Memory accesses of the mapped buffer are modelled two ways:
* the `…B` functions index a `List Char` with `l[i]?`; a read at or past the
  end of the buffer aborts the computation with the distinguished result
  `Res.oob` (this is the faithful model of the mapped region: the C++ source
  performs reads there whose behavior is undefined);
* the `…T` functions read a total function `Nat → Char` (memory that extends
  past the buffer with unspecified junk bytes); they model the observable
  output of a run in which the out-of-range reads happen to be benign,
  quantified over every possible value of the junk bytes.
-/

/-- Result of a modelled computation: a value, an out-of-range access
(undefined behavior in the C++ source), or fuel exhaustion (an artifact of the
embedding, proved unreachable at the fuel amounts the wrappers pass). -/
inductive Res (α : Type) where
  | ok : α → Res α
  | oob : Res α
  | fuelOut : Res α
deriving DecidableEq

/-- Mapping a function over the `ok` value of a `Res`. -/
def Res.map {α β : Type} (f : α → β) : Res α → Res β
  | .ok a => .ok (f a)
  | .oob => .oob
  | .fuelOut => .fuelOut

/-- Sequencing: continue a computation with the value of a previous step,
propagating an abort. -/
def withOk {α β : Type} : Res α → (α → Res β) → Res β
  | .ok a, f => f a
  | .oob, _ => .oob
  | .fuelOut, _ => .fuelOut

/-- `result` (grep.cpp lines 28–30): `return complement ? !bool(a) : a;`.
`!bool(a)` is `1` when `a = 0` and `0` otherwise. -/
def result (c : Bool) (a : Nat) : Nat :=
  if c then (if a = 0 then 1 else 0) else a

/-- Inner `while` loop of `searchline` (grep.cpp lines 41–47):
`while(startPos + matchLen < line.size() && line[startPos+matchLen] ==
pattern[matchLen])`.  The bound on the line is tested before the line byte is
read (short-circuit `&&`), so the line is only ever read in bounds.  The
pattern byte is read unguarded; the loop returns as soon as `matchLen` reaches
`patternSize`, so for a non-empty pattern the read index stays below
`pat.length` (a read at or past it, reachable only for the empty pattern whose
behavior the spec leaves undefined, aborts with `oob`).  `.ok true` stands for
the C++ `return result(startPos + 1)` taken inside the loop, `.ok false` for
falling out of the loop into the next iteration of the outer `for`. -/
def searchlineFrom (line pat : List Char) (startPos : Nat) : Nat → Nat → Res Bool
  | 0, _ => .fuelOut
  | fuel+1, matchLen =>
    if hl : startPos + matchLen < line.length then
      if hm : matchLen < pat.length then
        if (line)[startPos + matchLen] = pat[matchLen] then
          if matchLen + 1 = pat.length then .ok true
          else searchlineFrom line pat startPos fuel (matchLen + 1)
        else .ok false
      else .oob
    else .ok false

/-- Outer `for` loop of `searchline` (grep.cpp lines 38–49). -/
def searchlineGo (line pat : List Char) (c : Bool) : Nat → Nat → Res Nat
  | 0, _ => .fuelOut
  | fuel+1, startPos =>
    if startPos < line.length then
      withOk (searchlineFrom line pat startPos (pat.length + 1) 0) (fun found =>
        if found then .ok (result c (startPos + 1))
        else searchlineGo line pat c fuel (startPos + 1))
    else .ok (result c 0)

/-- `searchline` (grep.cpp lines 37–50): position of the first match
(1-based), `0` when there is none, both filtered through `result`. -/
def searchline (line pat : List Char) (c : Bool) : Res Nat :=
  searchlineGo line pat c (line.length + 1) 0

/-- `searchstream` (grep.cpp lines 56–63).  The collaborator (`getline`)
splits the input at newline bytes and strips them, so the input is modelled as
the list of decoded lines; a line is forwarded to the output exactly when
`searchline` returns a nonzero value. -/
def searchstream (pat : List Char) (c : Bool) : List (List Char) → Res (List (List Char))
  | [] => .ok []
  | line :: rest =>
    withOk (searchline line pat c) (fun n =>
      withOk (searchstream pat c rest) (fun out =>
        .ok (if n ≠ 0 then line :: out else out)))

/-- `match` (grep.cpp lines 71–80), buffer-indexed model (`match` is a Lean
keyword, hence the name `matchB`).  The C++ loop
`while(data[startPos + matchLen] == pattern[matchLen])` reads the buffer with
no bound check whatsoever: a read at or past the end of the buffer is an
out-of-bounds access, modelled by `oob`.  The pattern read is in range for a
non-empty pattern, as in `searchlineFrom`. -/
def matchB (data pat : List Char) (c : Bool) (startPos : Nat) : Nat → Nat → Res Bool
  | 0, _ => .fuelOut
  | fuel+1, matchLen =>
    if hm : matchLen < pat.length then
      if hd : startPos + matchLen < data.length then
        if data[startPos + matchLen] = pat[matchLen] then
          if matchLen + 1 = pat.length then .ok (decide (result c (startPos + 1) ≠ 0))
          else matchB data pat c startPos fuel (matchLen + 1)
        else .ok (decide (result c 0 ≠ 0))
      else .oob
    else .oob

/-- `match(data, startPos)` with its loop given sufficient fuel. -/
def matchRun (data pat : List Char) (c : Bool) (startPos : Nat) : Res Bool :=
  matchB data pat c startPos (pat.length + 1) 0

/-- Inner line-delimiting loop of `searchFile` (grep.cpp lines 94–99):
`while(data[iter] != newline && iter < size)` — the byte `data[iter]` is read
BEFORE the index is tested against `size`, so when the loop walks off the end
of the final line it reads `data[size]`, one past the end: modelled by
aborting with `oob` as soon as the read index is not below the buffer length.
When the read is in range, `iter < size` holds, so the loop body runs exactly
when the byte read is not a newline.  Returns the loop's exit position together with the
`matchFound` flag; the body updates `matchFound` by
`if(!matchFound && match(data, iter)) matchFound = true;`. -/
def lineLoopB (data pat : List Char) (c : Bool) : Nat → Nat → Bool → Res (Nat × Bool)
  | 0, _, _ => .fuelOut
  | fuel+1, iter, mf =>
    if hd : iter < data.length then
      if data[iter] = '\n' then .ok (iter, mf)
      else
        withOk (if mf then Res.ok true else matchRun data pat c iter) (fun found =>
          lineLoopB data pat c fuel (iter + 1) (mf || found))
    else .oob

/-- One output line of `searchFile` (grep.cpp lines 102–105): the path label
and a colon when `recursive` is set, then the raw bytes from the start of the
line up to (excluding) the loop's exit position. -/
def emitLine (data : List Char) (startIndex stop : Nat) (recursive : Bool) (fpath : List Char) : List Char :=
  (if recursive then fpath ++ [':'] else []) ++ (data.drop startIndex).take (stop - startIndex)

/-- Outer loop of `searchFile` (grep.cpp lines 88–108): one iteration per
line; emits the line when its `matchFound` flag is set, then advances past
the delimiting byte. -/
def searchFileGoB (data pat : List Char) (c recursive : Bool) (fpath : List Char) : Nat → Nat → Res (List (List Char))
  | 0, _ => .fuelOut
  | fuel+1, iter =>
    if iter < data.length then
      withOk (lineLoopB data pat c (data.length + 1) iter false) (fun sm =>
        withOk (searchFileGoB data pat c recursive fpath fuel (sm.1 + 1)) (fun out =>
          .ok (if sm.2 then emitLine data iter sm.1 recursive fpath :: out else out)))
    else .ok []

/-- `searchFile` (grep.cpp lines 87–109) over a buffer of `size = data.length`
bytes.  The list it returns is the sequence of lines written to standard
output. -/
def searchFile (data pat : List Char) (c recursive : Bool) (fpath : List Char) : Res (List (List Char)) :=
  searchFileGoB data pat c recursive fpath (data.length + 1) 0

/-- `match` over total memory `data : Nat → Char`: reads beyond the buffer
return unspecified junk instead of aborting.  Used to state what the program
prints when the out-of-range reads of `matchB` happen to be benign. -/
def matchT (data : Nat → Char) (pat : List Char) (c : Bool) (startPos : Nat) : Nat → Nat → Res Bool
  | 0, _ => .fuelOut
  | fuel+1, matchLen =>
    if hm : matchLen < pat.length then
      if data (startPos + matchLen) = pat[matchLen] then
        if matchLen + 1 = pat.length then .ok (decide (result c (startPos + 1) ≠ 0))
        else matchT data pat c startPos fuel (matchLen + 1)
      else .ok (decide (result c 0 ≠ 0))
    else .oob

/-- Inner line-delimiting loop of `searchFile` over total memory.  In this
pure model both conjuncts of the loop condition are value tests with no
side effect, so they may be tested in either order; we test the index bound
first (the read-before-test order of the source, which matters only for
access safety, is modelled faithfully by `lineLoopB`). -/
def lineLoopT (data : Nat → Char) (size : Nat) (pat : List Char) (c : Bool) : Nat → Nat → Bool → Res (Nat × Bool)
  | 0, _, _ => .fuelOut
  | fuel+1, iter, mf =>
    if iter < size then
      if data iter = '\n' then .ok (iter, mf)
      else
        withOk (if mf then Res.ok true else matchT data pat c iter (pat.length + 1) 0) (fun found =>
          lineLoopT data size pat c fuel (iter + 1) (mf || found))
    else .ok (iter, mf)

/-- Bytes `data[startIndex..stop)` of total memory. -/
def segT (data : Nat → Char) (startIndex stop : Nat) : List Char :=
  (List.range (stop - startIndex)).map (fun k => data (startIndex + k))

/-- Outer loop of `searchFile` over total memory. -/
def searchFileGoT (data : Nat → Char) (size : Nat) (pat : List Char) (c recursive : Bool) (fpath : List Char) : Nat → Nat → Res (List (List Char))
  | 0, _ => .fuelOut
  | fuel+1, iter =>
    if iter < size then
      withOk (lineLoopT data size pat c (size + 1) iter false) (fun sm =>
        withOk (searchFileGoT data size pat c recursive fpath fuel (sm.1 + 1)) (fun out =>
          .ok (if sm.2 then ((if recursive then fpath ++ [':'] else []) ++ segT data iter sm.1) :: out
               else out)))
    else .ok []

/-- `searchFile` over total memory. -/
def searchFileT (data : Nat → Char) (size : Nat) (pat : List Char) (c recursive : Bool) (fpath : List Char) : Res (List (List Char)) :=
  searchFileGoT data size pat c recursive fpath (size + 1) 0

/-- Total memory holding the buffer `buf` in its first `buf.length` cells and
arbitrary junk `ext` beyond them. -/
def bufFn (buf : List Char) (ext : Nat → Char) : Nat → Char :=
  fun i => if i < buf.length then buf.getD i 'A' else ext i

/-- Ground truth for the matcher: the pattern occurs at start offset `p` of
the line, entirely inside the line. -/
def occursAtL (line pat : List Char) (p : Nat) : Bool :=
  decide ((line.drop p).take pat.length = pat)

/-- Ground truth: position of the leftmost occurrence of the pattern. -/
def firstOcc (line pat : List Char) : Option Nat :=
  (List.range line.length).find? (fun p => occursAtL line pat p)

/-- Ground truth: the pattern occurs somewhere in the line. -/
def anyOccL (line pat : List Char) : Bool :=
  (List.range line.length).any (fun p => occursAtL line pat p)

/-- A buffer consisting of the given lines, each terminated by a newline. -/
def joinLines : List (List Char) → List Char
  | [] => []
  | l :: ls => l ++ '\n' :: joinLines ls

/-! ### Basic computation lemmas -/

@[simp] lemma withOk_ok {α β : Type} (a : α) (f : α → Res β) : withOk (Res.ok a) f = f a := rfl

@[simp] lemma withOk_oob {α β : Type} (f : α → Res β) : withOk (Res.oob : Res α) f = .oob := rfl

@[simp] lemma withOk_fuelOut {α β : Type} (f : α → Res β) :
    withOk (Res.fuelOut : Res α) f = .fuelOut := rfl

/-! ### Characterization of the stream-mode matcher -/

/-- The inner loop of `searchline` decides exactly whether the pattern is a
prefix of the line's suffix starting at `startPos + matchLen`, entirely
within the line. -/
lemma searchlineFrom_eq (line pat : List Char) (startPos : Nat) :
    ∀ fuel matchLen, matchLen < pat.length → pat.length - matchLen ≤ fuel →
    searchlineFrom line pat startPos fuel matchLen =
      .ok (decide ((line.drop (startPos + matchLen)).take (pat.length - matchLen) = pat.drop matchLen)) := by
  intro fuel
  induction fuel with
  | zero => intro matchLen hm hf; omega
  | succ fuel ih =>
    intro matchLen hm hf
    rw [searchlineFrom]
    by_cases hl : startPos + matchLen < line.length
    · rw [dif_pos hl, dif_pos hm]
      have hdrop : line.drop (startPos + matchLen) =
          (line)[startPos + matchLen] :: line.drop (startPos + matchLen + 1) :=
        List.drop_eq_getElem_cons hl
      have hpdrop : pat.drop matchLen = pat[matchLen] :: pat.drop (matchLen + 1) :=
        List.drop_eq_getElem_cons hm
      have hlen : pat.length - matchLen = (pat.length - (matchLen + 1)) + 1 := by omega
      rw [hdrop, hpdrop, hlen, List.take_succ_cons]
      by_cases hb : (line)[startPos + matchLen] = pat[matchLen]
      · rw [if_pos hb]
        by_cases hend : matchLen + 1 = pat.length
        · rw [if_pos hend]
          have h1 : pat.length - (matchLen + 1) = 0 := by omega
          have h2 : pat.drop (matchLen + 1) = [] := by
            rw [hend]; exact List.drop_length pat
          simp [h1, h2, hb]
        · rw [if_neg hend]
          have hm2 : matchLen + 1 < pat.length := by omega
          have harith : startPos + matchLen + 1 = startPos + (matchLen + 1) := by omega
          rw [harith, ih (matchLen + 1) hm2 (by omega)]
          congr 1
          rw [decide_eq_decide]
          simp only [List.cons.injEq, hb, true_and]
      · rw [if_neg hb]
        congr 1
        rw [eq_comm, decide_eq_false_iff_not]
        simp only [List.cons.injEq, not_and]
        intro hcon
        exact absurd hcon hb
    · rw [dif_neg hl]
      have h1 : line.drop (startPos + matchLen) = [] := by
        rw [List.drop_eq_nil_iff]
        omega
      have h2 : pat.drop matchLen ≠ [] := by
        intro hcon
        rw [List.drop_eq_nil_iff] at hcon
        omega
      simp [h1, h2]

/-- The inner loop at offset `startPos` with canonical fuel decides
`occursAtL`. -/
lemma searchlineFrom_occurs (line pat : List Char) (startPos : Nat) (hp : pat ≠ []) :
    searchlineFrom line pat startPos (pat.length + 1) 0 = .ok (occursAtL line pat startPos) := by
  have h0 : 0 < pat.length := List.length_pos.mpr hp
  rw [searchlineFrom_eq line pat startPos (pat.length + 1) 0 h0 (by omega)]
  simp [occursAtL]

/-- The outer loop of `searchline` returns the `result`-filtered 1-based
position of the first offset at or after `startPos` where the pattern
occurs. -/
lemma searchlineGo_eq (line pat : List Char) (c : Bool) (hp : pat ≠ []) :
    ∀ n fuel startPos, line.length = startPos + n → n + 1 ≤ fuel →
    searchlineGo line pat c fuel startPos =
      .ok (match (List.range' startPos n).find? (fun p => occursAtL line pat p) with
           | some p => result c (p + 1)
           | none => result c 0) := by
  intro n
  induction n with
  | zero =>
    intro fuel startPos hlen hf
    obtain ⟨f, rfl⟩ : ∃ f, fuel = f + 1 := ⟨fuel - 1, by omega⟩
    rw [searchlineGo, if_neg (by omega)]
    rfl
  | succ n ih =>
    intro fuel startPos hlen hf
    obtain ⟨f, rfl⟩ : ∃ f, fuel = f + 1 := ⟨fuel - 1, by omega⟩
    rw [searchlineGo, if_pos (by omega), searchlineFrom_occurs line pat startPos hp,
      List.range'_succ]
    cases hocc : occursAtL line pat startPos with
    | true => simp [List.find?_cons, hocc]
    | false =>
      rw [ih f (startPos + 1) (by omega) (by omega)]
      simp [List.find?_cons, hocc]

/-- `searchline` computes the `result`-filtered 1-based position of the
leftmost occurrence (`firstOcc`) of the pattern in the line, `0` standing
for no occurrence. -/
lemma searchline_eq (line pat : List Char) (c : Bool) (hp : pat ≠ []) :
    searchline line pat c =
      .ok (match firstOcc line pat with
           | some p => result c (p + 1)
           | none => result c 0) := by
  rw [searchline, searchlineGo_eq line pat c hp line.length (line.length + 1) 0 (by omega) (by omega),
    firstOcc, List.range_eq_range']

/-- `find?` over `range' s n` returns the least element of the range
satisfying the predicate. -/
lemma find?_range'_spec (f : Nat → Bool) :
    ∀ n s p, (List.range' s n).find? f = some p →
      s ≤ p ∧ p < s + n ∧ f p = true ∧ ∀ q, s ≤ q → q < p → f q = false := by
  intro n
  induction n with
  | zero => intro s p h; simp [List.range'] at h
  | succ n ih =>
    intro s p h
    rw [List.range'_succ, List.find?_cons] at h
    cases hf : f s with
    | true =>
      simp only [hf] at h
      obtain rfl : s = p := by injection h
      exact ⟨le_refl s, by omega, hf, fun q hq1 hq2 => by omega⟩
    | false =>
      simp only [hf] at h
      obtain ⟨h1, h2, h3, h4⟩ := ih (s + 1) p h
      refine ⟨by omega, by omega, h3, ?_⟩
      intro q hq1 hq2
      by_cases hqs : q = s
      · subst hqs; exact hf
      · exact h4 q (by omega) hq2

/-- The leftmost occurrence exists exactly when some occurrence exists. -/
lemma firstOcc_isSome_iff (line pat : List Char) :
    (firstOcc line pat).isSome = true ↔ anyOccL line pat = true := by
  rw [firstOcc, anyOccL, List.find?_isSome, List.any_eq_true]

/-- Some in-line occurrence exists exactly when the line splits around the
pattern. -/
lemma exists_occ_iff_append (line pat : List Char) (hp : pat ≠ []) :
    (∃ p, p < line.length ∧ occursAtL line pat p = true) ↔ ∃ s t, line = s ++ pat ++ t := by
  constructor
  · rintro ⟨p, hlt, hocc⟩
    rw [occursAtL, decide_eq_true_eq] at hocc
    refine ⟨line.take p, (line.drop p).drop pat.length, ?_⟩
    have h2 : line.drop p = pat ++ (line.drop p).drop pat.length := by
      conv_lhs => rw [← List.take_append_drop pat.length (line.drop p)]
      rw [hocc]
    rw [List.append_assoc, ← h2, List.take_append_drop]
  · rintro ⟨s, t, rfl⟩
    have hplen : 0 < pat.length := List.length_pos.mpr hp
    refine ⟨s.length, ?_, ?_⟩
    · simp only [List.append_assoc, List.length_append]
      omega
    · rw [occursAtL, decide_eq_true_eq, List.append_assoc, List.drop_left]
      exact List.take_left pat t

/-- The pattern can only occur at an offset leaving it room in the line. -/
lemma occursAtL_le (line pat : List Char) (p : Nat) (hp : pat ≠ [])
    (h : occursAtL line pat p = true) :
    p + pat.length ≤ line.length := by
  have hplen : 0 < pat.length := List.length_pos.mpr hp
  rw [occursAtL, decide_eq_true_eq] at h
  have hlen := congrArg List.length h
  rw [List.length_take, List.length_drop] at hlen
  have h2 : pat.length ≤ line.length - p := inf_eq_left.mp hlen
  omega

/-- C4: with invert=false and a non-empty pattern, `searchline` reports a
match exactly when the pattern occurs as a contiguous subsequence of the
line, and it returns the 1-based position of the leftmost occurrence (0
meaning no occurrence). -/
theorem C4_searchline_correct (line pat : List Char) (hp : pat ≠ []) :
    searchline line pat false =
        .ok (match firstOcc line pat with
             | some p => p + 1
             | none => 0) ∧
      ((∃ p, firstOcc line pat = some p) ↔ ∃ s t, line = s ++ pat ++ t) ∧
      (∀ p, firstOcc line pat = some p →
        occursAtL line pat p = true ∧ ∀ q, q < p → occursAtL line pat q = false) := by
  refine ⟨?_, ?_, ?_⟩
  · rw [searchline_eq line pat false hp]
    cases h : firstOcc line pat with
    | some p => simp [result]
    | none => simp [result]
  · rw [← Option.isSome_iff_exists, firstOcc_isSome_iff, ← exists_occ_iff_append line pat hp,
      anyOccL, List.any_eq_true]
    constructor
    · rintro ⟨p, hmem, hocc⟩
      exact ⟨p, List.mem_range.mp hmem, hocc⟩
    · rintro ⟨p, hlt, hocc⟩
      exact ⟨p, List.mem_range.mpr hlt, hocc⟩
  · intro p h
    rw [firstOcc, List.range_eq_range'] at h
    obtain ⟨h1, h2, h3, h4⟩ := find?_range'_spec (fun q => occursAtL line pat q) line.length 0 p h
    exact ⟨h3, fun q hq => h4 q (by omega) hq⟩

/-- C4 witness: the theorem instantiated at line "xcatx", pattern "cat". -/
theorem C4_witness :
    searchline "xcatx".toList "cat".toList false =
        .ok (match firstOcc "xcatx".toList "cat".toList with
             | some p => p + 1
             | none => 0) ∧
      ((∃ p, firstOcc "xcatx".toList "cat".toList = some p) ↔
        ∃ s t, "xcatx".toList = s ++ "cat".toList ++ t) ∧
      (∀ p, firstOcc "xcatx".toList "cat".toList = some p →
        occursAtL "xcatx".toList "cat".toList p = true ∧
          ∀ q, q < p → occursAtL "xcatx".toList "cat".toList q = false) :=
  C4_searchline_correct "xcatx".toList "cat".toList (by decide)

/-- C10: in stream mode every access is bounded: for a non-empty pattern,
`searchline` always completes with a value (it never performs an
out-of-range access and never exhausts its fuel, unlike the buffer-mode
matcher), and a pattern longer than the line is simply a non-match. -/
theorem C10_stream_bounded (line pat : List Char) (c : Bool) (hp : pat ≠ []) :
    (∃ n, searchline line pat c = .ok n) ∧
      (pat.length > line.length → searchline line pat false = .ok 0) := by
  constructor
  · exact ⟨_, searchline_eq line pat c hp⟩
  · intro hlong
    rw [searchline_eq line pat false hp]
    have hnone : firstOcc line pat = none := by
      rw [firstOcc, List.find?_eq_none]
      intro p hpmem
      intro hcon
      have := occursAtL_le line pat p hp hcon
      rw [List.mem_range] at hpmem
      omega
    rw [hnone]
    simp [result]

/-- C10 witness: the theorem instantiated at line "ab", pattern "abc". -/
theorem C10_witness :
    (∃ n, searchline "ab".toList "abc".toList false = .ok n) ∧
      ("abc".toList.length > "ab".toList.length →
        searchline "ab".toList "abc".toList false = .ok 0) :=
  C10_stream_bounded "ab".toList "abc".toList false (by decide)

/-! ### Characterization of the buffer-mode matcher -/

/-- The buffer-mode matcher either finds the full pattern in bounds, or runs
off the end of the buffer while all compared bytes agree (an out-of-bounds
access), or hits a mismatching byte in bounds. -/
lemma matchB_eq (data pat : List Char) (c : Bool) (startPos : Nat) :
    ∀ fuel matchLen, matchLen < pat.length → pat.length - matchLen ≤ fuel →
    matchB data pat c startPos fuel matchLen =
      (if (data.drop (startPos + matchLen)).take (pat.length - matchLen) = pat.drop matchLen
       then .ok (decide (result c (startPos + 1) ≠ 0))
       else if data.drop (startPos + matchLen) = (pat.drop matchLen).take (data.length - (startPos + matchLen))
       then .oob
       else .ok (decide (result c 0 ≠ 0))) := by
  intro fuel
  induction fuel with
  | zero => intro matchLen hm hf; omega
  | succ fuel ih =>
    intro matchLen hm hf
    rw [matchB, dif_pos hm]
    have hpdrop : pat.drop matchLen = pat[matchLen] :: pat.drop (matchLen + 1) :=
      List.drop_eq_getElem_cons hm
    by_cases hd : startPos + matchLen < data.length
    · rw [dif_pos hd]
      have hdrop : data.drop (startPos + matchLen) =
          data[startPos + matchLen] :: data.drop (startPos + matchLen + 1) :=
        List.drop_eq_getElem_cons hd
      have hlen : pat.length - matchLen = (pat.length - (matchLen + 1)) + 1 := by omega
      have hdlen : data.length - (startPos + matchLen) =
          (data.length - (startPos + matchLen + 1)) + 1 := by omega
      rw [hdrop, hpdrop, hlen, hdlen, List.take_succ_cons, List.take_succ_cons]
      by_cases hb : data[startPos + matchLen] = pat[matchLen]
      · rw [if_pos hb]
        by_cases hend : matchLen + 1 = pat.length
        · rw [if_pos hend]
          have h1 : pat.length - (matchLen + 1) = 0 := by omega
          have h2 : pat.drop (matchLen + 1) = [] := by
            rw [hend]; exact List.drop_length pat
          simp [h1, h2, hb]
        · rw [if_neg hend]
          have hm2 : matchLen + 1 < pat.length := by omega
          have harith : startPos + matchLen + 1 = startPos + (matchLen + 1) := by omega
          rw [harith, ih (matchLen + 1) hm2 (by omega)]
          rw [← harith]
          simp only [List.cons.injEq, hb, eq_self_iff_true, true_and]
      · rw [if_neg hb]
        rw [if_neg (by simp only [List.cons.injEq]; intro hcon; exact hb hcon.1),
          if_neg (by simp only [List.cons.injEq]; intro hcon; exact hb hcon.1)]
    · rw [dif_neg hd]
      have h1 : data.drop (startPos + matchLen) = [] := by
        rw [List.drop_eq_nil_iff]; omega
      have h2 : pat.drop matchLen ≠ [] := by
        intro hcon
        rw [List.drop_eq_nil_iff] at hcon
        omega
      have h3 : data.length - (startPos + matchLen) = 0 := by omega
      have h2s : ([] : List Char) ≠ pat.drop matchLen := fun hcon => h2 hcon.symm
      simp [h1, h3, h2s]

/-- `match(data, startPos)` in closed form for a non-empty pattern. -/
lemma matchRun_eq (data pat : List Char) (c : Bool) (s : Nat) (hp : pat ≠ []) :
    matchRun data pat c s =
      (if (data.drop s).take pat.length = pat
       then .ok (decide (result c (s + 1) ≠ 0))
       else if data.drop s = pat.take (data.length - s)
       then .oob
       else .ok (decide (result c 0 ≠ 0))) := by
  rw [matchRun, matchB_eq data pat c s (pat.length + 1) 0 (List.length_pos.mpr hp) (by omega)]
  simp only [Nat.add_zero, Nat.sub_zero, List.drop_zero]

/-- `match` never exhausts its canonical fuel for a non-empty pattern. -/
lemma matchRun_ne_fuelOut (data pat : List Char) (c : Bool) (s : Nat) (hp : pat ≠ []) :
    matchRun data pat c s ≠ .fuelOut := by
  rw [matchRun_eq data pat c s hp]
  split
  · simp
  · split
    · simp
    · simp

/-- Shape of the line-delimiting loop: it aborts with an out-of-range access
or stops in bounds at a newline byte at or after its start; moreover a line
whose `matchFound` flag got set took at least one step. -/
lemma lineLoopB_shape (data pat : List Char) (c : Bool) (hp : pat ≠ []) :
    ∀ fuel iter mf, iter ≤ data.length → data.length + 1 - iter ≤ fuel →
      lineLoopB data pat c fuel iter mf = .oob ∨
      ∃ j b, lineLoopB data pat c fuel iter mf = .ok (j, b) ∧ iter ≤ j ∧ j < data.length ∧
        (data)[j]? = some '\n' ∧ (mf = false → b = true → iter < j) := by
  intro fuel
  induction fuel with
  | zero => intro iter mf h1 h2; omega
  | succ fuel ih =>
    intro iter mf h1 h2
    rw [lineLoopB]
    by_cases hd : iter < data.length
    · rw [dif_pos hd]
      by_cases hn : data[iter] = '\n'
      · rw [if_pos hn]
        right
        refine ⟨iter, mf, rfl, le_refl iter, hd, ?_, ?_⟩
        · rw [List.getElem?_eq_getElem hd, hn]
        · intro hmf hb
          rw [hmf] at hb
          exact absurd hb (by simp)
      · rw [if_neg hn]
        cases hrv : (if mf then Res.ok true else matchRun data pat c iter) with
        | ok f =>
          rcases ih (iter + 1) (mf || f) (by omega) (by omega) with h | ⟨j, b, heq, hj1, hj2, hj3, hj4⟩
          · exact Or.inl h
          · exact Or.inr ⟨j, b, heq, by omega, hj2, hj3, fun _ _ => by omega⟩
        | oob => exact Or.inl rfl
        | fuelOut =>
          exfalso
          cases mf with
          | true => simp at hrv
          | false =>
            rw [if_neg (by simp)] at hrv
            exact matchRun_ne_fuelOut data pat c iter hp hrv
    · rw [dif_neg hd]
      exact Or.inl rfl

/-- A buffer whose suffix at `iter` is non-empty has `iter` in bounds. -/
lemma lt_length_of_drop_cons {data tail : List Char} {iter : Nat} {ch : Char}
    (hdrop : data.drop iter = ch :: tail) : iter < data.length := by
  have hlen := congrArg List.length hdrop
  rw [List.length_drop, List.length_cons] at hlen
  omega

/-- The head of a non-empty suffix is the byte at its start position. -/
lemma getElem_of_drop_cons {data tail : List Char} {iter : Nat} {ch : Char}
    (hdrop : data.drop iter = ch :: tail) (hlt : iter < data.length) :
    data[iter] = ch := by
  have h0 : (data.drop iter)[0]? = some ch := by rw [hdrop]; simp
  rw [List.getElem?_drop, Nat.add_zero, List.getElem?_eq_getElem hlt] at h0
  injection h0

/-- Taking `pat.length` bytes across an appended newline yields the pattern
only if taking them from the left part alone does, for a newline-free
pattern. -/
lemma take_eq_of_append_newline (pat A B : List Char) (hnp : '\n' ∉ pat) :
    ((A ++ '\n' :: B).take pat.length = pat) ↔ (A.take pat.length = pat) := by
  by_cases hle : pat.length ≤ A.length
  · rw [List.take_append_of_le_length hle]
  · constructor
    · intro h
      exfalso
      apply hnp
      rw [← h, List.take_append_eq_append_take]
      have hk : pat.length - A.length = (pat.length - A.length - 1) + 1 := by omega
      rw [hk, List.take_succ_cons]
      exact List.mem_append_right _ (List.mem_cons_self _ _)
    · intro h
      exfalso
      rw [List.take_of_length_le (by omega)] at h
      have hAl := congrArg List.length h
      omega

/-- Occurrence offsets in a cons line shift by one. -/
lemma occursAtL_cons_succ (ch : Char) (suf pat : List Char) (p : Nat) :
    occursAtL (ch :: suf) pat (p + 1) = occursAtL suf pat p := by
  rw [occursAtL, occursAtL, List.drop_succ_cons]

/-- No occurrence fits into the empty line. -/
lemma anyOccL_nil (pat : List Char) : anyOccL [] pat = false := rfl

/-- Occurrence anywhere in a cons line: at its head or in its tail. -/
lemma anyOccL_cons (ch : Char) (suf pat : List Char) :
    anyOccL (ch :: suf) pat = (occursAtL (ch :: suf) pat 0 || anyOccL suf pat) := by
  rw [anyOccL, anyOccL, List.length_cons, List.range_succ_eq_map, List.any_cons, List.any_map]
  congr 1

/-- On a buffer whose suffix at `iter` is a newline-free line followed by a
newline, the line-delimiting loop with invert=false stops exactly at that
newline and its flag records whether the pattern occurs in the line (or the
flag was already set). -/
lemma lineLoopB_line (data pat : List Char) (hp : pat ≠ []) (hnp : '\n' ∉ pat) :
    ∀ suf rest fuel iter mf, '\n' ∉ suf → data.drop iter = suf ++ '\n' :: rest →
      data.length + 1 - iter ≤ fuel →
      lineLoopB data pat false fuel iter mf = .ok (iter + suf.length, mf || anyOccL suf pat) := by
  intro suf
  induction suf with
  | nil =>
    intro rest fuel iter mf hns hdrop hf
    have hlt : iter < data.length := lt_length_of_drop_cons hdrop
    obtain ⟨f, rfl⟩ : ∃ f, fuel = f + 1 := ⟨fuel - 1, by omega⟩
    have hget : data[iter] = '\n' := getElem_of_drop_cons hdrop hlt
    rw [lineLoopB, dif_pos hlt, if_pos hget]
    simp [anyOccL_nil]
  | cons ch suf ih =>
    intro rest fuel iter mf hns hdrop hf
    have hlt : iter < data.length := lt_length_of_drop_cons hdrop
    obtain ⟨f, rfl⟩ : ∃ f, fuel = f + 1 := ⟨fuel - 1, by omega⟩
    have hget : data[iter] = ch := getElem_of_drop_cons hdrop hlt
    have hchn : ch ≠ '\n' := by
      intro hcon
      apply hns
      rw [← hcon]
      exact List.mem_cons_self _ _
    have hdropsucc : data.drop (iter + 1) = suf ++ '\n' :: rest := by
      rw [← List.drop_drop 1 iter data, hdrop]
      rfl
    have hmval : (if mf then Res.ok true else matchRun data pat false iter) =
        .ok (mf || occursAtL (ch :: suf) pat 0) := by
      cases mf with
      | true => simp
      | false =>
        rw [if_neg (by simp), matchRun_eq data pat false iter hp, hdrop]
        have hc1 := take_eq_of_append_newline pat (ch :: suf) rest hnp
        have hc2 : ¬((ch :: suf) ++ '\n' :: rest = pat.take (data.length - iter)) := by
          intro hcon
          apply hnp
          have hmem : '\n' ∈ (ch :: suf) ++ '\n' :: rest :=
            List.mem_append_right _ (List.mem_cons_self _ _)
          rw [hcon] at hmem
          exact List.mem_of_mem_take hmem
        rw [occursAtL, List.drop_zero]
        by_cases hcc : (ch :: suf).take pat.length = pat
        · rw [if_pos (hc1.mpr hcc)]
          simp [hcc, result]
        · rw [if_neg (fun hcon => hcc (hc1.mp hcon)), if_neg hc2]
          simp [hcc, result]
    rw [lineLoopB, dif_pos hlt, if_neg (by rw [hget]; exact hchn), hmval, withOk_ok,
      Bool.or_self_left,
      ih rest f (iter + 1) (mf || occursAtL (ch :: suf) pat 0)
        (fun hx => hns (List.mem_cons_of_mem ch hx)) hdropsucc (by omega)]
    have e1 : iter + 1 + suf.length = iter + (ch :: suf).length := by
      rw [List.length_cons]; omega
    have e2 : ((mf || occursAtL (ch :: suf) pat 0) || anyOccL suf pat)
        = (mf || anyOccL (ch :: suf) pat) := by
      rw [anyOccL_cons, Bool.or_assoc]
    rw [e1, e2]

/-! ### Stream mode versus buffer mode -/

/-- With invert=false, `searchstream` keeps exactly the lines in which the
pattern occurs. -/
lemma searchstream_eq (pat : List Char) (hp : pat ≠ []) :
    ∀ lines, searchstream pat false lines = .ok (lines.filter (fun l => anyOccL l pat)) := by
  intro lines
  induction lines with
  | nil => rfl
  | cons l ls ih =>
    rw [searchstream, searchline_eq l pat false hp, ih, List.filter_cons]
    cases hfo : firstOcc l pat with
    | some p =>
      have hsome : (firstOcc l pat).isSome = true := by rw [hfo]; rfl
      rw [firstOcc_isSome_iff] at hsome
      simp [result, hsome]
    | none =>
      have hany : anyOccL l pat = false := by
        rcases hcase : anyOccL l pat with _ | _
        · rfl
        · exfalso
          have := firstOcc_isSome_iff l pat
          rw [hfo, hcase] at this
          simp at this
      simp [result, hany]

/-- With invert=false, no tagging, a non-empty newline-free pattern and
newline-free lines, the buffer-mode outer loop over the newline-terminated
concatenation of the lines produces exactly the stream-mode output. -/
lemma searchFileGoB_join (data pat : List Char) (hp : pat ≠ []) (hnp : '\n' ∉ pat) :
    ∀ lines fuel iter, iter ≤ data.length → (∀ l ∈ lines, '\n' ∉ l) →
      data.drop iter = joinLines lines →
      data.length + 1 - iter ≤ fuel →
      searchFileGoB data pat false false [] fuel iter =
        .ok (lines.filter (fun l => anyOccL l pat)) := by
  intro lines
  induction lines with
  | nil =>
    intro fuel iter hle hnl hdrop hf
    obtain ⟨f, rfl⟩ : ∃ f, fuel = f + 1 := ⟨fuel - 1, by omega⟩
    have hge : data.length ≤ iter := by
      have hh := congrArg List.length hdrop
      rw [List.length_drop] at hh
      simp only [joinLines, List.length_nil] at hh
      omega
    rw [searchFileGoB, if_neg (by omega)]
    rfl
  | cons l ls ih =>
    intro fuel iter hle hnl hdrop hf
    obtain ⟨f, rfl⟩ : ∃ f, fuel = f + 1 := ⟨fuel - 1, by omega⟩
    rw [joinLines] at hdrop
    have hh := congrArg List.length hdrop
    rw [List.length_drop, List.length_append, List.length_cons] at hh
    have hlt : iter < data.length := by omega
    rw [searchFileGoB, if_pos hlt,
      lineLoopB_line data pat hp hnp l (joinLines ls) (data.length + 1) iter false
        (hnl l (List.mem_cons_self l ls)) hdrop (by omega)]
    have hds : data.drop (iter + l.length + 1) = joinLines ls := by
      have hsplit : l ++ '\n' :: joinLines ls = (l ++ ['\n']) ++ joinLines ls := by simp
      have hl2 : iter + l.length + 1 = iter + (l ++ ['\n']).length := by
        simp
        omega
      rw [hl2, ← List.drop_drop (l ++ ['\n']).length iter data, hdrop, hsplit, List.drop_left]
    rw [withOk_ok]
    rw [ih f (iter + l.length + 1) (by omega) (fun x hx => hnl x (List.mem_cons_of_mem l hx))
        hds (by omega),
      withOk_ok]
    have hemit : emitLine data iter (iter + l.length) false [] = l := by
      rw [emitLine, hdrop]
      have h1 : iter + l.length - iter = l.length := by omega
      have h2 : l ++ '\n' :: joinLines ls = l ++ ('\n' :: joinLines ls) := rfl
      rw [h1, h2]
      simp [List.take_left]
    rw [hemit, List.filter_cons]
    cases hany : anyOccL l pat with
    | true => simp
    | false => simp

/-! ### Absence of empty output lines -/

/-- Lines printed by the buffer-mode scanner (no tagging) are non-empty: the
`matchFound` flag can only be set by a loop step, so a printed line spans at
least one byte. -/
lemma searchFileGoB_no_empty (data pat : List Char) (c : Bool) (hp : pat ≠ []) :
    ∀ fuel iter out, iter ≤ data.length → data.length + 1 - iter ≤ fuel →
      searchFileGoB data pat c false [] fuel iter = .ok out → [] ∉ out := by
  intro fuel
  induction fuel with
  | zero => intro iter out h1 h2 heq; omega
  | succ fuel ih =>
    intro iter out h1 h2 heq
    rw [searchFileGoB] at heq
    by_cases hlt : iter < data.length
    · rw [if_pos hlt] at heq
      rcases lineLoopB_shape data pat c hp (data.length + 1) iter false (by omega) (by omega)
        with hoob | ⟨j, b, hline, hj1, hj2, hj3, hj4⟩
      · rw [hoob] at heq
        exact absurd heq (by simp)
      · rw [hline, withOk_ok] at heq
        cases hrec : searchFileGoB data pat c false [] fuel (j + 1) with
        | ok out2 =>
          rw [hrec, withOk_ok] at heq
          have hout2 : [] ∉ out2 := ih (j + 1) out2 (by omega) (by omega) hrec
          have heq2 : (if b then emitLine data iter j false [] :: out2 else out2) = out := by
            injection heq
          cases b with
          | false =>
            rw [if_neg (by simp)] at heq2
            rw [← heq2]
            exact hout2
          | true =>
            have hij : iter < j := hj4 rfl rfl
            have hemit : emitLine data iter j false [] ≠ [] := by
              rw [← List.length_pos, emitLine]
              simp only [Bool.false_eq_true, if_false, List.nil_append, List.length_take,
                List.length_drop]
              rw [lt_min_iff]
              constructor
              · omega
              · omega
            rw [if_pos rfl] at heq2
            rw [← heq2]
            intro hmem
            rcases List.mem_cons.mp hmem with hbad | hbad
            · exact hemit hbad.symm
            · exact hout2 hbad
        | oob =>
          rw [hrec] at heq
          exact absurd heq (by simp)
        | fuelOut =>
          rw [hrec] at heq
          exact absurd heq (by simp)
    · rw [if_neg hlt] at heq
      have : out = [] := by
        injection heq with h
        exact h.symm
      rw [this]
      exact List.not_mem_nil []

/-- `searchstream` with invert=false never outputs an empty line. -/
lemma searchstream_no_empty (pat : List Char) (hp : pat ≠ []) (lines out : List (List Char))
    (h : searchstream pat false lines = .ok out) : [] ∉ out := by
  rw [searchstream_eq pat hp lines] at h
  injection h with h
  rw [← h]
  intro hmem
  have hflt := List.of_mem_filter hmem
  rw [anyOccL_nil] at hflt
  exact absurd hflt (by simp)

/-! ### Out-of-range access on buffers not ending in a newline -/

/-- Whenever the buffer's last byte is not a newline, the outer scan loop,
started anywhere strictly inside the buffer, performs an out-of-range
access: every line loop either aborts itself or stops at an in-bounds
newline, which by assumption is not the last byte, so the scan eventually
walks the final unterminated line off the end of the buffer. -/
lemma searchFileGoB_oob (data pat : List Char) (c recursive : Bool) (fpath : List Char)
    (hp : pat ≠ []) (hlast : (data)[data.length - 1]? ≠ some '\n') :
    ∀ fuel iter, iter < data.length → data.length + 1 - iter ≤ fuel →
      searchFileGoB data pat c recursive fpath fuel iter = .oob := by
  intro fuel
  induction fuel with
  | zero => intro iter h1 h2; omega
  | succ fuel ih =>
    intro iter h1 h2
    rw [searchFileGoB, if_pos h1]
    rcases lineLoopB_shape data pat c hp (data.length + 1) iter false (by omega) (by omega)
      with hoob | ⟨j, b, hline, hj1, hj2, hj3, hj4⟩
    · rw [hoob]
      rfl
    · rw [hline, withOk_ok]
      have hjne : j ≠ data.length - 1 := by
        intro hcon
        apply hlast
        rw [← hcon]
        exact hj3
      have hrec := ih (j + 1) (by omega) (by omega)
      rw [hrec, withOk_oob]

/-! ### Claim theorems for the buffer-mode scanner -/

/-- C1: the spec's inversion law demands the line-level print decision with
invert=true be the negation of the one with invert=false, and in particular
that scanning "cat\ndog\ncatfish\n" for "cat" with invert=true print exactly
"dog".  The code violates this in buffer mode: `match` applies `result`
per position, so with invert=true any line having at least one position
where the pattern does not occur is printed — here all three lines,
including both "cat"-containing ones.  (Stream mode, which applies `result`
once per line inside `searchline`, prints exactly "dog".) -/
theorem C1_buffer_inversion_bug :
    searchFile "cat\ndog\ncatfish\n".toList "cat".toList true false [] =
        .ok ["cat".toList, "dog".toList, "catfish".toList] ∧
      searchstream "cat".toList true ["cat".toList, "dog".toList, "catfish".toList] =
        .ok ["dog".toList] ∧
      searchline "cat".toList "cat".toList true = .ok 0 ∧
      searchline "cat".toList "cat".toList false = .ok 1 :=
  ⟨by decide, by decide, by decide, by decide⟩

/-- C2: the buffer-mode matcher `match`, asked to match "abc" at offset 0 of
the two-byte buffer "ab", reads the byte one past the end of the buffer
(modelled result `oob`) instead of returning false; under the total-memory
model its answer depends on the junk byte found beyond the buffer. -/
theorem C2_match_unbounded :
    matchRun "ab".toList "abc".toList false 0 = .oob ∧
      matchT (bufFn "ab".toList (fun _ => 'c')) "abc".toList false 0 4 0 = .ok true ∧
      matchT (bufFn "ab".toList (fun _ => 'x')) "abc".toList false 0 4 0 = .ok false :=
  ⟨by decide, by decide, by decide⟩

/-- C3 counterexample: the two modes do not agree for every configuration.
With invert=true, the stream-mode predicate decides not to print the line
"cat" for pattern "cat" (searchline returns 0), but the buffer-mode scan of
"cat\n" — in which "cat" occurs as a line — prints "cat".  And with
invert=false a pattern containing a newline ("a\nb") matches across a line
boundary in buffer mode only: stream mode prints nothing for lines
["a", "b"], buffer mode prints "a". -/
theorem C3_counterexample :
    (searchline "cat".toList "cat".toList true = .ok 0 ∧
      searchFile "cat\n".toList "cat".toList true false [] = .ok ["cat".toList]) ∧
      (searchstream "a\nb".toList false ["a".toList, "b".toList] = .ok [] ∧
        searchFile "a\nb\n".toList "a\nb".toList false false [] = .ok ["a".toList]) :=
  ⟨⟨by decide, by decide⟩, ⟨by decide, by decide⟩⟩

/-- C3 amended: with invert=false, a non-empty pattern free of newline
bytes, and newline-free line contents, the stream-mode scan of the lines and
the buffer-mode scan of their newline-terminated concatenation produce the
same output. -/
theorem C3_stream_buffer_agree (lines : List (List Char)) (pat : List Char)
    (hp : pat ≠ []) (hnp : '\n' ∉ pat) (hnl : ∀ l ∈ lines, '\n' ∉ l) :
    ∃ out, searchstream pat false lines = .ok out ∧
      searchFile (joinLines lines) pat false false [] = .ok out := by
  refine ⟨lines.filter (fun l => anyOccL l pat), searchstream_eq pat hp lines, ?_⟩
  rw [searchFile]
  exact searchFileGoB_join (joinLines lines) pat hp hnp lines ((joinLines lines).length + 1) 0
    (by omega) hnl (by rw [List.drop_zero]) (by omega)

/-- C3 witness: the amended theorem at lines ["ab", "xy"], pattern "a". -/
theorem C3_witness :
    ∃ out, searchstream "a".toList false ["ab".toList, "xy".toList] = .ok out ∧
      searchFile (joinLines ["ab".toList, "xy".toList]) "a".toList false false [] = .ok out :=
  C3_stream_buffer_agree ["ab".toList, "xy".toList] "a".toList (by decide) (by decide) (by decide)

/-- C5: in buffer mode the end of the buffer acts as an implicit line
terminator: on the 7-byte buffer "abc\ndef" with pattern "de", whatever junk
bytes lie beyond the buffer, the output is exactly the line "def". -/
theorem C5_final_line (ext : Nat → Char) :
    searchFileT (bufFn "abc\ndef".toList ext) 7 "de".toList false false [] =
      .ok ["def".toList] := rfl

/-- C5 witness: the theorem at a concrete junk-memory extension. -/
theorem C5_witness :
    searchFileT (bufFn "abc\ndef".toList (fun _ => 'Z')) 7 "de".toList false false [] =
      .ok ["def".toList] := C5_final_line (fun _ => 'Z')

/-- C6 counterexample: in stream mode with invert=true an empty line IS
printed (searchline returns `result true 0 = 1`), so "a zero-length line is
never printed" fails as an unconditional statement. -/
theorem C6_counterexample :
    searchstream "a".toList true [[]] = .ok [[]] := by decide

/-- C6 amended: a zero-length line never matches a non-empty pattern
(`searchline` reports `result c 0`, i.e. no occurrence, for every invert
flag); with invert=false it is never printed in stream mode; in buffer mode
(no tagging) it is never printed for any invert flag; and the buffer
"\n\nabc\n" with pattern "a" yields exactly "abc". -/
theorem C6_empty_line (data pat : List Char) (c : Bool) (lines outS outB : List (List Char))
    (hp : pat ≠ []) :
    searchline [] pat c = .ok (result c 0) ∧
      (searchstream pat false lines = .ok outS → [] ∉ outS) ∧
      (searchFile data pat c false [] = .ok outB → [] ∉ outB) ∧
      searchFile "\n\nabc\n".toList "a".toList false false [] = .ok ["abc".toList] := by
  refine ⟨?_, ?_, ?_, by decide⟩
  · rw [searchline_eq [] pat c hp]
    rfl
  · exact searchstream_no_empty pat hp lines outS
  · intro h
    rw [searchFile] at h
    exact searchFileGoB_no_empty data pat c hp (data.length + 1) 0 outB (by omega) (by omega) h

/-- C6 witness: the amended theorem at buffer "\n\nabc\n", pattern "a",
invert=true, stream lines [[]]. -/
theorem C6_witness :
    searchline [] "a".toList true = .ok (result true 0) ∧
      (searchstream "a".toList false [[]] = .ok [] → [] ∉ ([] : List (List Char))) ∧
      (searchFile "\n\nabc\n".toList "a".toList true false [] = .ok ["\n\nabc\n".toList] →
        [] ∉ ["\n\nabc\n".toList]) ∧
      searchFile "\n\nabc\n".toList "a".toList false false [] = .ok ["abc".toList] :=
  C6_empty_line "\n\nabc\n".toList "a".toList true [[]] [] ["\n\nabc\n".toList] (by decide)

/-- C7: scanning "abc\ndef\n" for "bc" prints exactly "abc" (newline
excluded); scanning it for "x" prints nothing. -/
theorem C7_line_splitting :
    searchFile "abc\ndef\n".toList "bc".toList false false [] = .ok ["abc".toList] ∧
      searchFile "abc\ndef\n".toList "x".toList false false [] = .ok [] :=
  ⟨by decide, by decide⟩

/-- The tagged scan is the untagged scan with every output line prefixed by
the label and a colon. -/
lemma searchFileGoB_tag (data pat : List Char) (c : Bool) (fpath : List Char) :
    ∀ fuel iter, searchFileGoB data pat c true fpath fuel iter =
      Res.map (List.map (fun l => fpath ++ ':' :: l))
        (searchFileGoB data pat c false fpath fuel iter) := by
  intro fuel
  induction fuel with
  | zero => intro iter; rfl
  | succ fuel ih =>
    intro iter
    rw [searchFileGoB, searchFileGoB]
    by_cases hlt : iter < data.length
    · rw [if_pos hlt, if_pos hlt]
      cases hline : lineLoopB data pat c (data.length + 1) iter false with
      | ok sm =>
        rw [withOk_ok, withOk_ok, ih (sm.1 + 1)]
        cases hrec : searchFileGoB data pat c false fpath fuel (sm.1 + 1) with
        | ok out =>
          simp only [Res.map, withOk_ok]
          cases hsm : sm.2 with
          | true => simp [emitLine]
          | false => simp
        | oob => simp [Res.map]
        | fuelOut => simp [Res.map]
      | oob => rfl
      | fuelOut => rfl
    · rw [if_neg hlt, if_neg hlt]
      rfl

/-- C8: with tagging (recursive mode) enabled, every qualifying line is
emitted as the label, a colon, then the line (e.g. "foo.txt:hello"); in
single-file non-recursive mode the same scan emits the bare lines even
though a path is supplied, and stream mode has no label at all. -/
theorem C8_path_tagging :
    (∀ (data pat : List Char) (c : Bool) (fpath : List Char),
      searchFile data pat c true fpath =
        Res.map (List.map (fun l => fpath ++ ':' :: l)) (searchFile data pat c false fpath)) ∧
      searchFile "hello\n".toList "ell".toList false true "foo.txt".toList =
        .ok ["foo.txt:hello".toList] ∧
      searchFile "hello\n".toList "ell".toList false false "foo.txt".toList =
        .ok ["hello".toList] ∧
      searchstream "ell".toList false ["hello".toList] = .ok ["hello".toList] := by
  refine ⟨?_, by decide, by decide, by decide⟩
  intro data pat c fpath
  rw [searchFile, searchFile]
  exact searchFileGoB_tag data pat c fpath (data.length + 1) 0

/-- C9: the line-delimiting loop reads `data[iter]` before testing
`iter < size`, so on every non-empty buffer whose final byte is not a
newline the scan reaches the read at index `size` (one past the end) while
delimiting the final line, and the faithful access-checked model reports an
out-of-range access. -/
theorem C9_line_loop_oob (data pat : List Char) (c recursive : Bool) (fpath : List Char)
    (hp : pat ≠ []) (hne : data ≠ []) (hlast : data.getLast? ≠ some '\n') :
    searchFile data pat c recursive fpath = .oob := by
  rw [searchFile]
  rw [List.getLast?_eq_getElem?] at hlast
  exact searchFileGoB_oob data pat c recursive fpath hp hlast (data.length + 1) 0
    (List.length_pos.mpr hne) (by omega)

/-- C9 witness: the theorem at buffer "abc\ndef" (final line unterminated),
pattern "de" — an input on which every pattern comparison stays in bounds,
so the out-of-range access is the line-delimiting read itself. -/
theorem C9_witness :
    searchFile "abc\ndef".toList "de".toList false false [] = .oob :=
  C9_line_loop_oob "abc\ndef".toList "de".toList false false [] (by decide) (by decide)
    (by decide)
